import Mathlib

/-!
Verification development for the completion engine of the isocline/repline
line-editing library (src/completers.c).

Modelling conventions.

* C strings are modelled as `List Char`, one element per code point.  The
  code-point cursor functions `str_next_ofs` / `str_prev_ofs` / `sbuf_next`
  (defined in stringbuf.c / common.c, which are not part of this repository
  snapshot) are modelled from the spec: they move the scan position by exactly
  one code point, i.e. by one list element.  All characters the scanner
  compares against (quote characters, the escape character, separator
  characters) are single code points, so byte-level and code-point-level
  comparisons agree.
* Reading a C string at or past its terminating NUL yields the character
  `NUL`; `charAt` therefore defaults to `NUL` out of range.  `strchr(set, c)`
  returns a non-null pointer when `c` occurs in `set` OR when `c` is the NUL
  terminator itself; `strchrNN` models exactly that test.
* The imperative loops of completers.c keep their original control structure
  (including stale length bounds and the mid-loop `break`s) and are written
  with an explicit fuel argument so that they are structurally recursive and
  kernel-computable; every loop strictly advances its position, so a fuel
  equal to the loop bound is always sufficient, and the lemmas below are
  proved for every sufficient fuel.
* Allocation (`mem_strdup`, `sbuf_new`) may fail; failure is an input to the
  model (`wordAllocOk`, `sbufAllocOk` flags).
-/

/-- The NUL character terminating a C string. -/
def NUL : Char := Char.ofNat 0

/-- Read a C string at an index; at or past the end of the data this reads
the terminating NUL (or the zero padding left behind by `rp_memmove`). -/
def charAt (s : List Char) (i : Nat) : Char := s.getD i NUL

/-- `strchr(set, c) != NULL`: true when `c` occurs in `set` or `c` is the
NUL terminator of `set` itself (the classic `strchr(s, 0)` behaviour). -/
def strchrNN (set : List Char) (c : Char) : Bool := set.contains c || c == NUL

/-- `sbuf_insert_char_at`: insert a character at an index of a string buffer. -/
def insertAt (l : List Char) (i : Nat) (c : Char) : List Char :=
  l.take i ++ c :: l.drop i

/-- The `rp_memmove(word+wpos, word+wpos+1, ...)` step of the unescape loop:
delete the character at an index, shifting the rest left. -/
def eraseAt (l : List Char) (i : Nat) : List Char :=
  l.take i ++ l.drop (i + 1)

/-- Default separator set of `rp_complete_quoted_word` (`" \t\r\n"`). -/
def defaultNonWord : List Char := [' ', '\t', '\r', '\n']

/-- Default quote set of `rp_complete_quoted_word` (`"'\""`). -/
def defaultQuotes : List Char := ['\'', '"']

/-- Separator set passed by `rp_complete_filename`
(`" \t\r\n`@$><=;|&{("`, with the backquote and open brace spelled
numerically). -/
def filenameNonWord : List Char :=
  [' ', '\t', '\r', '\n', Char.ofNat 96, '@', '$', '>', '<', '=', ';', '|',
   '&', Char.ofNat 123, '(']

/-!  ## The escape loop of `word_add_completion_ex` (completers.c:40-52)

The C loop walks the scratch buffer and inserts `escape_char` before every
member of `non_word_chars`; `len` is read once before the loop and is not
updated when insertions grow the buffer, and `sbuf_next` returns a negative
position at the end of the (grown) buffer, ending the loop.  -/

/-- The escape loop, fueled.  One fuel unit per iteration; `pos` advances by
at least one each iteration and the loop runs only while `pos < len`, so
`len` fuel is always sufficient. -/
def escapeGo (nw : List Char) (esc : Char) (len : Nat) :
    Nat → List Char → Nat → List Char
  | 0, buf, _ => buf
  | fuel + 1, buf, pos =>
    if pos < len then
      if strchrNN nw (charAt buf pos) then
        let buf' := insertAt buf pos esc
        -- pos++ over the inserted escape, then sbuf_next over the separator;
        -- sbuf_next yields a negative position at the end of the buffer.
        if pos + 2 < buf'.length then escapeGo nw esc len fuel buf' (pos + 2)
        else buf'
      else
        if pos + 1 < buf.length then escapeGo nw esc len fuel buf (pos + 1)
        else buf
    else buf

/-- `word_add_completion_ex`'s escape pass over a whole buffer. -/
def word_escape (nw : List Char) (esc : Char) (w : List Char) : List Char :=
  escapeGo nw esc w.length w.length w 0

/-- Clean recursive characterisation of the escape loop: `escRun b v`
processes `v` with a remaining position budget `b` (the loop's stale
`len - pos`); inserting an escape consumes two budget units, so with budget
`1` the rest of the buffer is kept verbatim after the insertion. -/
def escRun (nw : List Char) (esc : Char) : Nat → List Char → List Char
  | 0, v => v
  | _ + 1, [] => []
  | 1, d :: v' => if strchrNN nw d then esc :: d :: v' else d :: v'
  | b + 2, d :: v' =>
    if strchrNN nw d then esc :: d :: escRun nw esc b v'
    else d :: escRun nw esc (b + 1) v'

/-!  ## The unescape loop of `rp_complete_quoted_word` (completers.c:126-138)

Each `escape_char` immediately followed by a `strchr` member of
`non_word_chars` is removed by an in-place `rp_memmove`; `wlen` stays the
original length, so after removals the loop keeps scanning over the zero
padding (reading NUL, which never equals a position's escape test when the
data is a real C string), and at the very last data position the
`word[wpos+1]` read hits the NUL terminator, which `strchr` *does* match. -/

/-- The unescape loop, fueled (one fuel unit per iteration, `wpos` advances
by one each iteration, `wlen` fuel suffices). -/
def unescapeGo (nw : List Char) (esc : Char) (wlen : Nat) :
    Nat → List Char → Nat → List Char
  | 0, word, _ => word
  | fuel + 1, word, wpos =>
    if wpos < wlen then
      if charAt word wpos = esc ∧ strchrNN nw (charAt word (wpos + 1)) = true then
        unescapeGo nw esc wlen fuel (eraseAt word wpos) (wpos + 1)
      else
        unescapeGo nw esc wlen fuel word (wpos + 1)
    else word

/-- `rp_complete_quoted_word`'s unescape pass over a whole word. -/
def word_unescape (nw : List Char) (esc : Char) (w : List Char) : List Char :=
  unescapeGo nw esc w.length w.length w 0

/-- Clean recursive characterisation of the unescape loop, with budget `b`
(= `wlen - wpos`).  Note the degenerate cases produced by the C loop: with
positive budget a trailing escape character is *removed*, because the
`word[wpos+1]` read returns the NUL terminator and `strchr` matches it. -/
def unescRun (nw : List Char) (esc : Char) : Nat → List Char → List Char
  | 0, v => v
  | _ + 1, [] => []
  | b + 1, c :: v =>
    if c = esc ∧ strchrNN nw (charAt v 0) = true then
      match v with
      | [] => []
      | d :: v' => d :: unescRun nw esc b v'
    else c :: unescRun nw esc b v

/-- The proviso of the round-trip property as the spec words it: a raw
occurrence of the escape character directly followed (inside `w`) by a
separator character. -/
def hasEscSepPair (nw : List Char) (esc : Char) : List Char → Bool
  | [] => false
  | [_] => false
  | c :: d :: r => (c == esc && nw.contains d) || hasEscSepPair nw esc (d :: r)

/-- The condition under which the unescape loop never fires on `w`: no
position holds the escape character followed by a `strchr` member of the
separator set — where the read one past the end yields NUL, which `strchr`
matches, so this also excludes a trailing escape character. -/
def noEscTrigger (nw : List Char) (esc : Char) (v : List Char) : Prop :=
  ∀ i < v.length, ¬(charAt v i = esc ∧ strchrNN nw (charAt v (i + 1)) = true)

/-! ## Supporting list lemmas -/

theorem charAt_append_add (a v : List Char) (i : Nat) :
    charAt (a ++ v) (a.length + i) = charAt v i := by
  unfold charAt
  rw [List.getD_append_right a v NUL (a.length + i) (Nat.le_add_right _ _),
    Nat.add_sub_cancel_left]

theorem charAt_append_self (a v : List Char) : charAt (a ++ v) a.length = charAt v 0 := by
  have h := charAt_append_add a v 0
  simpa using h

theorem charAt_cons_succ (c : Char) (l : List Char) (n : Nat) :
    charAt (c :: l) (n + 1) = charAt l n := by
  simp [charAt]

theorem insertAt_append (a v : List Char) (c : Char) :
    insertAt (a ++ v) a.length c = a ++ c :: v := by
  simp [insertAt, List.take_left, List.drop_left]

theorem eraseAt_append (a v : List Char) (c : Char) :
    eraseAt (a ++ c :: v) a.length = a ++ v := by
  have h1 : (a ++ c :: v).take a.length = a := List.take_left a (c :: v)
  have h2 : (a ++ c :: v).drop (a.length + 1) = v := by
    rw [List.drop_append_eq_append_drop]
    simp
  simp [eraseAt, h1, h2]

theorem eraseAt_of_le (l : List Char) (i : Nat) (h : l.length ≤ i) : eraseAt l i = l := by
  simp [eraseAt, List.take_of_length_le h, List.drop_of_length_le (Nat.le_succ_of_le h)]

/-! ## Characterisation of the escape loop -/

theorem escapeGo_succ (nw : List Char) (esc : Char) (len fuel : Nat) (buf : List Char)
    (pos : Nat) :
    escapeGo nw esc len (fuel + 1) buf pos =
      if pos < len then
        if strchrNN nw (charAt buf pos) then
          if pos + 2 < (insertAt buf pos esc).length then
            escapeGo nw esc len fuel (insertAt buf pos esc) (pos + 2)
          else insertAt buf pos esc
        else
          if pos + 1 < buf.length then escapeGo nw esc len fuel buf (pos + 1)
          else buf
      else buf := rfl

theorem escapeGo_stop (nw : List Char) (esc : Char) (len fuel : Nat) (buf : List Char)
    (pos : Nat) (h : ¬ pos < len) : escapeGo nw esc len fuel buf pos = buf := by
  cases fuel <;> simp [escapeGo, h]

theorem escapeGo_eq_escRun (nw : List Char) (esc : Char) :
    ∀ (fuel b : Nat) (E v : List Char), b ≤ v.length → b ≤ fuel →
      escapeGo nw esc (E.length + b) fuel (E ++ v) E.length = E ++ escRun nw esc b v := by
  intro fuel
  induction fuel with
  | zero =>
    intro b E v hbv hbf
    interval_cases b
    simp [escapeGo, escRun]
  | succ fuel ih =>
    intro b E v hbv hbf
    cases b with
    | zero =>
      rw [escapeGo_stop nw esc (E.length + 0) (fuel + 1) (E ++ v) E.length (by omega)]
      simp [escRun]
    | succ b' =>
      cases v with
      | nil => simp at hbv
      | cons d v' =>
        have hpos : E.length < E.length + (b' + 1) := by omega
        have hc : charAt (E ++ d :: v') E.length = d := by
          rw [charAt_append_self]; rfl
        rw [escapeGo_succ, if_pos hpos, hc]
        by_cases hmem : strchrNN nw d = true
        · -- separator: the escape character is inserted before it
          rw [if_pos hmem, insertAt_append]
          cases v' with
          | nil =>
            rw [if_neg (by simp)]
            have hb0 : b' = 0 := by simp at hbv; omega
            subst hb0
            simp [escRun, hmem]
          | cons e t =>
            rw [if_pos (by simp)]
            cases b' with
            | zero =>
              rw [escapeGo_stop nw esc (E.length + (0 + 1)) fuel
                (E ++ esc :: d :: e :: t) (E.length + 2) (by omega)]
              simp [escRun, hmem]
            | succ b'' =>
              have hb'' : b'' ≤ (e :: t).length := by simp at hbv ⊢; omega
              have ihh := ih b'' (E ++ [esc, d]) (e :: t) hb'' (by omega)
              have h1 : (E ++ [esc, d]).length + b'' = E.length + (b'' + 1 + 1) := by
                simp; omega
              have h2 : (E ++ [esc, d]) ++ e :: t = E ++ esc :: d :: e :: t := by simp
              have h3 : (E ++ [esc, d]).length = E.length + 2 := by simp
              rw [h1, h2, h3] at ihh
              rw [ihh]
              simp [escRun, hmem]
        · -- not a separator: the loop steps over it
          rw [if_neg hmem]
          cases v' with
          | nil =>
            rw [if_neg (by simp)]
            have hb0 : b' = 0 := by simp at hbv; omega
            subst hb0
            simp [escRun, hmem]
          | cons e t =>
            rw [if_pos (by simp)]
            cases b' with
            | zero =>
              rw [escapeGo_stop nw esc (E.length + (0 + 1)) fuel
                (E ++ d :: e :: t) (E.length + 1) (by omega)]
              simp [escRun, hmem]
            | succ b'' =>
              have hb'' : b'' + 1 ≤ (e :: t).length := by simp at hbv ⊢; omega
              have ihh := ih (b'' + 1) (E ++ [d]) (e :: t) hb'' (by omega)
              have h1 : (E ++ [d]).length + (b'' + 1) = E.length + (b'' + 1 + 1) := by
                simp; omega
              have h2 : (E ++ [d]) ++ e :: t = E ++ d :: e :: t := by simp
              have h3 : (E ++ [d]).length = E.length + 1 := by simp
              rw [h1, h2, h3] at ihh
              rw [ihh]
              simp [escRun, hmem]

theorem word_escape_eq_escRun (nw : List Char) (esc : Char) (w : List Char) :
    word_escape nw esc w = escRun nw esc w.length w := by
  have h := escapeGo_eq_escRun nw esc w.length w.length [] w (Nat.le_refl _) (Nat.le_refl _)
  simpa [word_escape] using h

/-! ## Characterisation of the unescape loop -/

theorem charAt_of_le (l : List Char) (i : Nat) (h : l.length ≤ i) : charAt l i = NUL := by
  unfold charAt
  exact List.getD_eq_default l NUL h

theorem unescapeGo_succ (nw : List Char) (esc : Char) (wlen fuel : Nat) (word : List Char)
    (wpos : Nat) :
    unescapeGo nw esc wlen (fuel + 1) word wpos =
      if wpos < wlen then
        if charAt word wpos = esc ∧ strchrNN nw (charAt word (wpos + 1)) = true then
          unescapeGo nw esc wlen fuel (eraseAt word wpos) (wpos + 1)
        else unescapeGo nw esc wlen fuel word (wpos + 1)
      else word := rfl

theorem unescapeGo_stop (nw : List Char) (esc : Char) (wlen fuel : Nat) (word : List Char)
    (wpos : Nat) (h : ¬ wpos < wlen) : unescapeGo nw esc wlen fuel word wpos = word := by
  cases fuel <;> simp [unescapeGo, h]

/-- Once `wpos` has run past the live data, the loop only reads NUL padding
and leaves the buffer unchanged. -/
theorem unescapeGo_of_le (nw : List Char) (esc : Char) :
    ∀ (fuel wlen : Nat) (word : List Char) (wpos : Nat), word.length ≤ wpos →
      unescapeGo nw esc wlen fuel word wpos = word := by
  intro fuel
  induction fuel with
  | zero => intro wlen word wpos _; rfl
  | succ fuel ih =>
    intro wlen word wpos hle
    rw [unescapeGo_succ]
    by_cases hlt : wpos < wlen
    · rw [if_pos hlt]
      by_cases hced : charAt word wpos = esc ∧ strchrNN nw (charAt word (wpos + 1)) = true
      · rw [if_pos hced, eraseAt_of_le word wpos hle, ih wlen word (wpos + 1) (by omega)]
      · rw [if_neg hced, ih wlen word (wpos + 1) (by omega)]
    · rw [if_neg hlt]

theorem unescapeGo_eq_unescRun (nw : List Char) (esc : Char) :
    ∀ (fuel b : Nat) (D v : List Char), b ≤ fuel →
      unescapeGo nw esc (D.length + b) fuel (D ++ v) D.length = D ++ unescRun nw esc b v := by
  intro fuel
  induction fuel with
  | zero =>
    intro b D v hbf
    interval_cases b
    simp [unescapeGo, unescRun]
  | succ fuel ih =>
    intro b D v hbf
    cases b with
    | zero =>
      rw [unescapeGo_stop nw esc (D.length + 0) (fuel + 1) (D ++ v) D.length (by omega)]
      simp [unescRun]
    | succ b' =>
      have hpos : D.length < D.length + (b' + 1) := by omega
      cases v with
      | nil =>
        rw [List.append_nil]
        rw [unescapeGo_succ, if_pos hpos]
        have hcD : charAt D D.length = NUL := charAt_of_le D D.length (Nat.le_refl _)
        by_cases hced : charAt D D.length = esc ∧ strchrNN nw (charAt D (D.length + 1)) = true
        · rw [if_pos hced, eraseAt_of_le D D.length (Nat.le_refl _),
            unescapeGo_of_le nw esc fuel _ D (D.length + 1) (by omega)]
          simp [unescRun]
        · rw [if_neg hced, unescapeGo_of_le nw esc fuel _ D (D.length + 1) (by omega)]
          simp [unescRun]
      | cons c v' =>
        have hc : charAt (D ++ c :: v') D.length = c := by
          rw [charAt_append_self]; rfl
        have hc1 : charAt (D ++ c :: v') (D.length + 1) = charAt v' 0 := by
          rw [charAt_append_add D (c :: v') 1, charAt_cons_succ]
        rw [unescapeGo_succ, if_pos hpos, hc, hc1]
        by_cases hced : c = esc ∧ strchrNN nw (charAt v' 0) = true
        · rw [if_pos hced, eraseAt_append]
          cases v' with
          | nil =>
            rw [List.append_nil, unescapeGo_of_le nw esc fuel _ D (D.length + 1) (by omega)]
            simp only [unescRun]
            rw [if_pos hced]
            simp
          | cons d v'' =>
            have ihh := ih b' (D ++ [d]) v'' (by omega)
            have h1 : (D ++ [d]).length + b' = D.length + (b' + 1) := by simp; omega
            have h2 : (D ++ [d]) ++ v'' = D ++ d :: v'' := by simp
            have h3 : (D ++ [d]).length = D.length + 1 := by simp
            rw [h1, h2, h3] at ihh
            rw [ihh]
            simp only [unescRun]
            rw [if_pos hced]
            simp
        · rw [if_neg hced]
          have ihh := ih b' (D ++ [c]) v' (by omega)
          have h1 : (D ++ [c]).length + b' = D.length + (b' + 1) := by simp; omega
          have h2 : (D ++ [c]) ++ v' = D ++ c :: v' := by simp
          have h3 : (D ++ [c]).length = D.length + 1 := by simp
          rw [h1, h2, h3] at ihh
          rw [ihh]
          simp only [unescRun]
          rw [if_neg hced]
          simp

theorem word_unescape_eq_unescRun (nw : List Char) (esc : Char) (w : List Char) :
    word_unescape nw esc w = unescRun nw esc w.length w := by
  have h := unescapeGo_eq_unescRun nw esc w.length w.length [] w (Nat.le_refl _)
  simpa [word_unescape] using h

/-! ## Round trip of escaping and unescaping -/

theorem charAt_nil (i : Nat) : charAt [] i = NUL := by
  cases i <;> rfl

theorem charAt_cons_zero (c : Char) (l : List Char) : charAt (c :: l) 0 = c := rfl

theorem strchrNN_nul (nw : List Char) : strchrNN nw NUL = true := by
  simp [strchrNN]

theorem escRun_nil (nw : List Char) (esc : Char) (b : Nat) : escRun nw esc b [] = [] := by
  rcases b with _ | _ | b <;> rfl

theorem unescRun_nil (nw : List Char) (esc : Char) (b : Nat) : unescRun nw esc b [] = [] := by
  cases b <;> rfl

theorem unescRun_succ_cons (nw : List Char) (esc : Char) (B : Nat) (c : Char) (v : List Char) :
    unescRun nw esc (B + 1) (c :: v) =
      if c = esc ∧ strchrNN nw (charAt v 0) = true then
        (match v with | [] => [] | d :: v' => d :: unescRun nw esc B v')
      else c :: unescRun nw esc B v := rfl

theorem escRun_charAt_zero (nw : List Char) (esc : Char) (B : Nat) (e : Char) (t : List Char)
    (h : strchrNN nw e = false) : charAt (escRun nw esc B (e :: t)) 0 = e := by
  rcases B with _ | _ | B <;> simp [escRun, h] <;> rfl

theorem noEscTrigger_tail (nw : List Char) (esc : Char) (c : Char) (v : List Char)
    (h : noEscTrigger nw esc (c :: v)) : noEscTrigger nw esc v := by
  intro i hi hcontra
  have h' := h (i + 1) (by simp; omega)
  rw [charAt_cons_succ, charAt_cons_succ] at h'
  exact h' hcontra

/-- On a buffer free of escape triggers the unescape pass is the identity,
whatever the budget. -/
theorem unescRun_of_noEscTrigger (nw : List Char) (esc : Char) :
    ∀ (v : List Char) (B : Nat), noEscTrigger nw esc v → unescRun nw esc B v = v := by
  intro v
  induction v with
  | nil => intro B _; exact unescRun_nil nw esc B
  | cons c v' ih =>
    intro B h
    cases B with
    | zero => rfl
    | succ B' =>
      have h0 := h 0 (by simp)
      rw [charAt_cons_zero, charAt_cons_succ] at h0
      rw [unescRun_succ_cons, if_neg h0]
      rw [ih B' (noEscTrigger_tail nw esc c v' h)]

/-- Composition: unescaping the escape pass's output recovers the input, for
any sufficient unescape budget, provided the input has no escape trigger. -/
theorem unescRun_escRun (nw : List Char) (esc : Char) :
    ∀ (v : List Char) (b B : Nat), b ≤ v.length → noEscTrigger nw esc v →
      (escRun nw esc b v).length ≤ B → unescRun nw esc B (escRun nw esc b v) = v := by
  intro v
  induction v with
  | nil =>
    intro b B _ _ _
    rw [escRun_nil, unescRun_nil]
  | cons d v' ih =>
    intro b B hb hno hB
    have hnotail := noEscTrigger_tail nw esc d v' hno
    cases b with
    | zero => exact unescRun_of_noEscTrigger nw esc (d :: v') B hno
    | succ b' =>
      by_cases hmem : strchrNN nw d = true
      · cases b' with
        | zero =>
          -- escRun 1 (d :: v') = esc :: d :: v'
          simp only [escRun, hmem, if_true] at hB ⊢
          cases B with
          | zero => simp at hB
          | succ B' =>
            rw [unescRun_succ_cons, if_pos ⟨rfl, by rw [charAt_cons_zero]; exact hmem⟩]
            show d :: unescRun nw esc B' v' = d :: v'
            rw [unescRun_of_noEscTrigger nw esc v' B' hnotail]
        | succ b'' =>
          simp only [escRun, hmem, if_true] at hB ⊢
          cases B with
          | zero => simp at hB
          | succ B' =>
            rw [unescRun_succ_cons, if_pos ⟨rfl, by rw [charAt_cons_zero]; exact hmem⟩]
            show d :: unescRun nw esc B' (escRun nw esc b'' v') = d :: v'
            have hlen : (escRun nw esc b'' v').length ≤ B' := by
              simp at hB; omega
            have hb'' : b'' ≤ v'.length := by simp at hb; omega
            rw [ih b'' B' hb'' hnotail hlen]
      · have hmemf : strchrNN nw d = false := by simpa using hmem
        cases b' with
        | zero =>
          -- escRun 1 (d :: v') = d :: v': nothing was escaped
          simp only [escRun, hmem, if_false]
          exact unescRun_of_noEscTrigger nw esc (d :: v') B hno
        | succ b'' =>
          have hesc : escRun nw esc (b'' + 1 + 1) (d :: v') =
              d :: escRun nw esc (b'' + 1) v' := by
            simp [escRun, hmemf]
          rw [hesc] at hB ⊢
          cases B with
          | zero => simp at hB
          | succ B' =>
            have hcond : ¬(d = esc ∧
                strchrNN nw (charAt (escRun nw esc (b'' + 1) v') 0) = true) := by
              intro hand
              obtain ⟨hd, hsec⟩ := hand
              subst hd
              cases v' with
              | nil =>
                -- v = [esc]: excluded by noEscTrigger at its last position
                have h0 := hno 0 (by simp)
                rw [charAt_cons_zero, charAt_cons_succ, charAt_nil] at h0
                exact h0 ⟨rfl, strchrNN_nul nw⟩
              | cons e t =>
                by_cases hmeme : strchrNN nw e = true
                · have h0 := hno 0 (by simp)
                  rw [charAt_cons_zero, charAt_cons_succ, charAt_cons_zero] at h0
                  exact h0 ⟨rfl, hmeme⟩
                · have hmemef : strchrNN nw e = false := by simpa using hmeme
                  rw [escRun_charAt_zero nw d (b'' + 1) e t hmemef] at hsec
                  exact absurd hsec (by simp [hmemef])
            cases v' with
            | nil =>
              rw [escRun_nil] at hcond ⊢
              rw [unescRun_succ_cons, if_neg hcond, unescRun_nil]
            | cons e t =>
              rw [unescRun_succ_cons, if_neg hcond]
              have hlen : (escRun nw esc (b'' + 1) (e :: t)).length ≤ B' := by
                simp at hB; omega
              have hb'' : b'' + 1 ≤ (e :: t).length := by simp at hb ⊢; omega
              rw [ih (b'' + 1) B' hb'' hnotail hlen]

/-! ## Deriving the trigger-freedom condition from the spec's provisos -/

theorem charAt_mem (w : List Char) (i : Nat) (h : i < w.length) : charAt w i ∈ w := by
  unfold charAt
  rw [List.getD_eq_getElem w NUL h]
  exact List.getElem_mem h

theorem hasEscSepPair_of_pair (nw : List Char) (esc : Char) :
    ∀ (w : List Char) (i : Nat), i + 1 < w.length → charAt w i = esc →
      nw.contains (charAt w (i + 1)) = true → hasEscSepPair nw esc w = true := by
  intro w
  induction w with
  | nil => intro i h1 _ _; simp at h1
  | cons c rest ih =>
    intro i h1 h2 h3
    cases rest with
    | nil => simp at h1
    | cons d r =>
      cases i with
      | zero =>
        rw [charAt_cons_zero] at h2
        rw [charAt_cons_succ, charAt_cons_zero] at h3
        subst h2
        simp only [hasEscSepPair, Bool.or_eq_true, Bool.and_eq_true, beq_iff_eq]
        exact Or.inl (by simpa using h3)
      | succ j =>
        rw [charAt_cons_succ] at h2
        rw [charAt_cons_succ] at h3
        have hrec := ih j (by simp at h1 ⊢; omega) h2 h3
        simp [hasEscSepPair, hrec]

theorem noEscTrigger_of_provisos (nw : List Char) (esc : Char) (w : List Char)
    (hpair : hasEscSepPair nw esc w = false)
    (hlast : charAt w (w.length - 1) ≠ esc)
    (hnul : NUL ∉ w) : noEscTrigger nw esc w := by
  intro i hi hand
  obtain ⟨h1, h2⟩ := hand
  rcases Nat.lt_or_ge (i + 1) w.length with hlt | hge
  · -- a real in-string pair: contradicts the pair proviso
    have hmem : charAt w (i + 1) ∈ w := charAt_mem w (i + 1) hlt
    have hnz : (charAt w (i + 1) == NUL) = false := by
      simp only [beq_eq_false_iff_ne, ne_eq]
      intro hcc
      rw [hcc] at hmem
      exact hnul hmem
    have hcont : nw.contains (charAt w (i + 1)) = true := by
      unfold strchrNN at h2
      rw [hnz] at h2
      simpa using h2
    rw [hasEscSepPair_of_pair nw esc w i hlt h1 hcont] at hpair
    exact Bool.noConfusion hpair
  · -- the trailing position: contradicts the no-trailing-escape proviso
    have : i = w.length - 1 := by omega
    rw [this] at h1
    exact hlast h1

/-- C2 counterexample: the round trip as claimed fails on the code.  The word
`"a\"` contains no raw escape character directly followed by a separator
character (nothing follows the escape), yet
`unescape(escape("a\")) = "a" ≠ "a\"`: the escape pass leaves the word
unchanged, and the unescape loop, at the final position, reads the NUL
terminator as `word[wpos+1]`, which `strchr(non_word_chars, ...)` matches, so
the trailing escape character is deleted. -/
theorem rewrite_roundtrip_fails_on_trailing_escape :
    hasEscSepPair [' '] '\\' (['a', '\\']) = false ∧
    word_escape [' '] '\\' (['a', '\\']) = ['a', '\\'] ∧
    word_unescape [' '] '\\' (word_escape [' '] '\\' (['a', '\\'])) = ['a'] ∧
    (['a'] : List Char) ≠ ['a', '\\'] :=
  ⟨by decide, by decide, by decide, by decide⟩

/-- C2 (amended): for every word `w` over an alphabet that may include
separator characters and the escape character, applying the rewrite layer's
escape step (`word_add_completion_ex`) and then the unescape step
(`rp_complete_quoted_word`) yields `w` again, provided `w` contains no raw
occurrence of the escape character directly followed by a separator character
AND `w` does not end with the escape character.  (`w` is a C string, so it
contains no NUL.) -/
theorem rewrite_roundtrip_amended (nw : List Char) (esc : Char) (w : List Char)
    (hpair : hasEscSepPair nw esc w = false)
    (hlast : charAt w (w.length - 1) ≠ esc)
    (hnul : NUL ∉ w) :
    word_unescape nw esc (word_escape nw esc w) = w := by
  have hno : noEscTrigger nw esc w := noEscTrigger_of_provisos nw esc w hpair hlast hnul
  rw [word_escape_eq_escRun, word_unescape_eq_unescRun]
  exact unescRun_escRun nw esc w w.length _ (Nat.le_refl _) hno (Nat.le_refl _)

/-- Witness for the amended round trip at the concrete word `"he wor"` with
the default separators and escape `'\'`. -/
theorem rewrite_roundtrip_amended_witness :
    hasEscSepPair defaultNonWord '\\' (("he wor").toList) = false ∧
    word_unescape defaultNonWord '\\'
      (word_escape defaultNonWord '\\' (("he wor").toList)) = ("he wor").toList :=
  ⟨by decide, rewrite_roundtrip_amended defaultNonWord '\\' (("he wor").toList)
    (by decide) (by decide) (by decide)⟩

/-!  ## The word boundary scanner of `rp_complete_quoted_word`

Step 1 (completers.c:71-101): a forward pass counts quote characters; a
character immediately following the escape character is skipped entirely.
`qpos` tracks the most recent opening quote (-1 after a closing quote),
`qcount` the number of counted quotes.  Step 2 (completers.c:103-117): when
the count is even, a backward code-point scan looks for the first separator
that is not preceded by the escape character. -/

/-- The forward quote-counting loop, fueled (one unit per iteration; each
iteration advances `pos` by at least one, so `len` fuel suffices). -/
def quoteScanGo (qc : List Char) (esc : Char) (pre : List Char) (len : Nat) :
    Nat → Nat → Int → Nat → Int × Nat
  | 0, _, qpos, qcount => (qpos, qcount)
  | fuel + 1, pos, qpos, qcount =>
    if pos < len then
      if charAt pre pos = esc then
        -- pos++ skips the escaped character; then str_next_ofs, which is 0
        -- at the end of the input, ending the loop
        if pos + 1 < len then quoteScanGo qc esc pre len fuel (pos + 2) qpos qcount
        else (qpos, qcount)
      else if strchrNN qc (charAt pre pos) then
        quoteScanGo qc esc pre len fuel (pos + 1)
          (if qcount % 2 = 1 then (-1 : Int) else (pos : Int)) (qcount + 1)
      else quoteScanGo qc esc pre len fuel (pos + 1) qpos qcount
    else (qpos, qcount)

/-- The list of (positions of) quote characters counted by the forward pass,
in scan order: the same traversal as `quoteScanGo`, collecting the positions
at which `qcount` is incremented. -/
def quotePositionsGo (qc : List Char) (esc : Char) (pre : List Char) (len : Nat) :
    Nat → Nat → List Nat
  | 0, _ => []
  | fuel + 1, pos =>
    if pos < len then
      if charAt pre pos = esc then
        if pos + 1 < len then quotePositionsGo qc esc pre len fuel (pos + 2)
        else []
      else if strchrNN qc (charAt pre pos) then
        pos :: quotePositionsGo qc esc pre len fuel (pos + 1)
      else quotePositionsGo qc esc pre len fuel (pos + 1)
    else []

/-- The un-escaped quote positions of a whole prefix string. -/
def quotePositions (qc : List Char) (esc : Char) (pre : List Char) : List Nat :=
  quotePositionsGo qc esc pre pre.length pre.length 0

/-- The backward scan for an un-escaped separator, fueled.  `pos` goes down
by one code point per iteration; it stops at the first position whose
character is a separator not preceded by the escape character. -/
def backScanGo (nw : List Char) (esc : Char) (pre : List Char) :
    Nat → Nat → Nat
  | 0, pos => pos
  | fuel + 1, pos =>
    if 0 < pos then
      -- str_prev_ofs steps back one code point (one element)
      if strchrNN nw (charAt pre (pos - 1)) = true then
        if pos ≤ 1 ∨ ¬(charAt pre (pos - 2) = esc) then pos
        else backScanGo nw esc pre fuel (pos - 1)
      else backScanGo nw esc pre fuel (pos - 1)
    else pos

/-- A separator occurrence at which the backward scan stops: position `i`
holds a separator character that is not preceded by the escape character. -/
def sepStop (nw : List Char) (esc : Char) (pre : List Char) (i : Nat) : Bool :=
  strchrNN nw (charAt pre i) && (decide (i = 0) || !(charAt pre (i - 1) == esc))

/-- The greatest index `< n` at which the backward scan would stop. -/
def lastSepStopBelow (nw : List Char) (esc : Char) (pre : List Char) (n : Nat) :
    Option Nat :=
  ((List.range n).filter (fun i => sepStop nw esc pre i)).getLast?

/-- `rp_complete_quoted_word`'s word-boundary scan (completers.c:67-117):
returns the word start offset and the quote character (`none` = unquoted).
Step 1 runs only when the quote set is non-empty (`quote_chars[0] != 0`). -/
def scanWordStart (pre qc nw : List Char) (esc : Char) : Nat × Option Char :=
  if qc = [] then (backScanGo nw esc pre pre.length pre.length, none)
  else if (quoteScanGo qc esc pre pre.length pre.length 0 (-1) 0).2 % 2 = 1 then
    ((quoteScanGo qc esc pre pre.length pre.length 0 (-1) 0).1.toNat + 1,
     some (charAt pre (quoteScanGo qc esc pre pre.length pre.length 0 (-1) 0).1.toNat))
  else (backScanGo nw esc pre pre.length pre.length, none)

/-! ## Characterisation of the forward quote scan -/

theorem mem_of_getLast?_eq (l : List Nat) (a : Nat) (h : l.getLast? = some a) : a ∈ l := by
  have hne : l ≠ [] := by intro hh; subst hh; simp at h
  rw [List.getLast?_eq_getLast l hne] at h
  have ha : a = l.getLast hne := by injection h with hh; exact hh.symm
  rw [ha]
  exact List.getLast_mem hne

theorem getLastD_irrel (n : Nat) (e : Nat) (t : List Nat) :
    (e :: t).getLastD n = (e :: t).getLastD 0 := by
  rw [List.getLastD_eq_getLast?, List.getLastD_eq_getLast?]
  obtain ⟨x, hx⟩ :=
    Option.isSome_iff_exists.mp (List.getLast?_isSome.mpr (List.cons_ne_nil e t))
  rw [hx]
  rfl

/-- The value `qpos` holds after the scan, as a function of its value and the
count before, and of the positions still to be counted: the last counted
position if the final count parity marks it as an opening quote, `-1` if it
marks it as a closing quote, the incoming value if nothing is counted. -/
def quoteFinal (qpos : Int) (qcount : Nat) (L : List Nat) : Int :=
  if L = [] then qpos
  else if (qcount + L.length - 1) % 2 = 1 then -1 else ((L.getLastD 0 : Nat) : Int)

theorem quoteFinal_cons (qpos : Int) (qcount pos : Nat) (L' : List Nat) :
    quoteFinal (if qcount % 2 = 1 then (-1 : Int) else (pos : Int)) (qcount + 1) L' =
      quoteFinal qpos qcount (pos :: L') := by
  cases L' with
  | nil => simp [quoteFinal]
  | cons e t =>
    have h1 : (qcount + 1 + (e :: t).length - 1) = qcount + (pos :: e :: t).length - 1 := by
      simp; omega
    simp only [quoteFinal, List.cons_ne_nil, if_false, h1]
    rw [show ((pos :: e :: t).getLastD 0) = t.getLastD e by
      rw [List.getLastD_cons, List.getLastD_cons]]
    rw [List.getLastD_cons]

theorem quoteScanGo_eq (qc : List Char) (esc : Char) (pre : List Char) (len : Nat) :
    ∀ (fuel pos : Nat) (qpos : Int) (qcount : Nat),
      quoteScanGo qc esc pre len fuel pos qpos qcount =
        (quoteFinal qpos qcount (quotePositionsGo qc esc pre len fuel pos),
         qcount + (quotePositionsGo qc esc pre len fuel pos).length) := by
  intro fuel
  induction fuel with
  | zero => intro pos qpos qcount; simp [quoteScanGo, quotePositionsGo, quoteFinal]
  | succ fuel ih =>
    intro pos qpos qcount
    by_cases hpos : pos < len
    · by_cases hesc : charAt pre pos = esc
      · by_cases h1 : pos + 1 < len
        · simp only [quoteScanGo, quotePositionsGo, hpos, if_true, hesc, h1]
          exact ih (pos + 2) qpos qcount
        · simp only [quoteScanGo, quotePositionsGo, hpos, if_true, hesc, h1, if_false]
          simp [quoteFinal]
      · by_cases hq : strchrNN qc (charAt pre pos) = true
        · simp only [quoteScanGo, quotePositionsGo, hpos, if_true, hesc, if_false, hq]
          rw [ih (pos + 1) (if qcount % 2 = 1 then (-1 : Int) else (pos : Int)) (qcount + 1)]
          rw [quoteFinal_cons qpos qcount pos]
          simp
          omega
        · simp only [quoteScanGo, quotePositionsGo, hpos, if_true, hesc, if_false, hq]
          exact ih (pos + 1) qpos qcount
    · simp only [quoteScanGo, quotePositionsGo, hpos, if_false]
      simp [quoteFinal]

/-- C1: the word-boundary scan of `rp_complete_quoted_word` counts the
un-escaped quote characters in a single forward pass (`quotePositions` is
that pass's list of counted positions; a character immediately following the
escape character is skipped entirely by both).  The loop's final count equals
the length of that list; when the count is odd the resulting quote character
is the character at the last counted position — the last unmatched opening
quote, of even zero-based parity — and the word start is the offset
immediately after it; when the count is even the scan reports unquoted mode. -/
theorem quoted_word_quote_parity (pre nw qc : List Char) (esc : Char) (hqc : qc ≠ []) :
    (quoteScanGo qc esc pre pre.length pre.length 0 (-1) 0).2 =
      (quotePositions qc esc pre).length ∧
    ((quotePositions qc esc pre).length % 2 = 1 →
      scanWordStart pre qc nw esc =
        ((quotePositions qc esc pre).getLastD 0 + 1,
         some (charAt pre ((quotePositions qc esc pre).getLastD 0)))) ∧
    ((quotePositions qc esc pre).length % 2 = 0 →
      (scanWordStart pre qc nw esc).2 = none) := by
  have hr := quoteScanGo_eq qc esc pre pre.length pre.length 0 (-1) 0
  have h2 : (quoteScanGo qc esc pre pre.length pre.length 0 (-1) 0).2 =
      0 + (quotePositionsGo qc esc pre pre.length pre.length 0).length := by rw [hr]
  have h1 : (quoteScanGo qc esc pre pre.length pre.length 0 (-1) 0).1 =
      quoteFinal (-1) 0 (quotePositionsGo qc esc pre pre.length pre.length 0) := by rw [hr]
  refine ⟨by rw [h2, Nat.zero_add]; rfl, ?_, ?_⟩
  · intro hodd
    have hodd' : (quotePositionsGo qc esc pre pre.length pre.length 0).length % 2 = 1 := hodd
    have hLne : quotePositionsGo qc esc pre pre.length pre.length 0 ≠ [] := by
      intro h0; rw [h0] at hodd'; simp at hodd'
    have hq1 : quoteFinal (-1) 0 (quotePositionsGo qc esc pre pre.length pre.length 0) =
        (((quotePositionsGo qc esc pre pre.length pre.length 0).getLastD 0 : Nat) : Int) := by
      unfold quoteFinal
      rw [if_neg hLne, if_neg (by omega)]
    unfold scanWordStart
    rw [if_neg hqc, h2, if_pos (by omega), h1, hq1, Int.toNat_natCast]
    rfl
  · intro heven
    have heven' : (quotePositionsGo qc esc pre pre.length pre.length 0).length % 2 = 0 := heven
    unfold scanWordStart
    rw [if_neg hqc, h2, if_neg (by omega)]

/-- Witness for the quote-parity scan: `"ab 'cd"` has one un-escaped quote at
offset 3, so the word is quoted with `'` and starts at offset 4. -/
theorem quoted_word_quote_parity_witness :
    (quotePositions defaultQuotes '\\' (("ab 'cd").toList)).length % 2 = 1 ∧
    scanWordStart (("ab 'cd").toList) defaultQuotes defaultNonWord '\\' = (4, some '\'') := by
  have h := quoted_word_quote_parity (("ab 'cd").toList) defaultNonWord defaultQuotes '\\'
    (by decide)
  refine ⟨by decide, ?_⟩
  rw [h.2.1 (by decide)]
  decide

/-! ## Characterisation of the backward separator scan -/

theorem filter_range_succ_true (f : Nat → Bool) (p : Nat) (h : f p = true) :
    (List.range (p + 1)).filter f = (List.range p).filter f ++ [p] := by
  rw [List.range_succ, List.filter_append]
  simp [h]

theorem filter_range_succ_false (f : Nat → Bool) (p : Nat) (h : f p = false) :
    (List.range (p + 1)).filter f = (List.range p).filter f := by
  rw [List.range_succ, List.filter_append]
  simp [h]

theorem backScanGo_succ (nw : List Char) (esc : Char) (pre : List Char) (fuel pos : Nat) :
    backScanGo nw esc pre (fuel + 1) pos =
      if 0 < pos then
        if strchrNN nw (charAt pre (pos - 1)) = true then
          if pos ≤ 1 ∨ ¬(charAt pre (pos - 2) = esc) then pos
          else backScanGo nw esc pre fuel (pos - 1)
        else backScanGo nw esc pre fuel (pos - 1)
      else pos := rfl

theorem backScanGo_eq (nw : List Char) (esc : Char) (pre : List Char) :
    ∀ (fuel pos : Nat), pos ≤ fuel →
      backScanGo nw esc pre fuel pos =
        (match lastSepStopBelow nw esc pre pos with
         | some i => i + 1
         | none => 0) := by
  intro fuel
  induction fuel with
  | zero =>
    intro pos hpos
    interval_cases pos
    simp [backScanGo, lastSepStopBelow]
  | succ fuel ih =>
    intro pos hpos
    cases pos with
    | zero => simp [backScanGo, lastSepStopBelow]
    | succ p =>
      have h0 : (0 : Nat) < p + 1 := Nat.succ_pos p
      have hi1 : p + 1 - 1 = p := by omega
      have hi2 : p + 1 - 2 = p - 1 := by omega
      rw [backScanGo_succ, if_pos h0, hi1, hi2]
      by_cases hsep : strchrNN nw (charAt pre p) = true
      · rw [if_pos hsep]
        by_cases hstop : p + 1 ≤ 1 ∨ ¬(charAt pre (p - 1) = esc)
        · rw [if_pos hstop]
          have hstopb : sepStop nw esc pre p = true := by
            unfold sepStop
            rcases hstop with h | h
            · have hp : p = 0 := by omega
              subst hp
              rw [hsep]
              simp
            · rw [hsep]
              simp [h]
          unfold lastSepStopBelow
          rw [filter_range_succ_true _ p hstopb, List.getLast?_concat]
        · rw [if_neg hstop]
          have hstopb : sepStop nw esc pre p = false := by
            unfold sepStop
            push_neg at hstop
            obtain ⟨hp1, hp2⟩ := hstop
            have hpne : ¬ p = 0 := by omega
            rw [hsep, hp2]
            simp [hpne]
          rw [ih p (by omega)]
          unfold lastSepStopBelow
          rw [filter_range_succ_false _ p hstopb]
      · rw [if_neg hsep]
        have hsepf : strchrNN nw (charAt pre p) = false := by simpa using hsep
        have hstopb : sepStop nw esc pre p = false := by
          unfold sepStop
          rw [hsepf]
          simp
        rw [ih p (by omega)]
        unfold lastSepStopBelow
        rw [filter_range_succ_false _ p hstopb]

/-- C6: in unquoted mode (even quote count, or an empty quote set) the word
boundary scan goes backward from the end one code point at a time and stops
at the first (greatest) position holding a `non_word_chars` member that is
not preceded by the escape character; the word start is the offset just after
that position, or 0 when there is none.  The scan steps by whole code points
(one list element of the code-point sequence), so the returned offset is a
code-point boundary within the input, never splitting a multi-byte code
point; in particular it never exceeds the input length. -/
theorem unquoted_backward_scan (pre nw qc : List Char) (esc : Char)
    (h : qc = [] ∨ (quotePositions qc esc pre).length % 2 = 0) :
    scanWordStart pre qc nw esc =
      ((match lastSepStopBelow nw esc pre pre.length with
        | some i => i + 1
        | none => 0), none) ∧
    (scanWordStart pre qc nw esc).1 ≤ pre.length := by
  have hback := backScanGo_eq nw esc pre pre.length pre.length (Nat.le_refl _)
  have hws : scanWordStart pre qc nw esc =
      ((match lastSepStopBelow nw esc pre pre.length with
        | some i => i + 1
        | none => 0), none) := by
    rcases h with hqc | heven
    · unfold scanWordStart
      rw [if_pos hqc, hback]
    · by_cases hqc : qc = []
      · unfold scanWordStart
        rw [if_pos hqc, hback]
      · have hr := quoteScanGo_eq qc esc pre pre.length pre.length 0 (-1) 0
        have h2 : (quoteScanGo qc esc pre pre.length pre.length 0 (-1) 0).2 =
            0 + (quotePositionsGo qc esc pre pre.length pre.length 0).length := by rw [hr]
        have heven' : (quotePositionsGo qc esc pre pre.length pre.length 0).length % 2 = 0 :=
          heven
        unfold scanWordStart
        rw [if_neg hqc, h2, if_neg (by omega), hback]
  refine ⟨hws, ?_⟩
  rw [hws]
  cases hm : lastSepStopBelow nw esc pre pre.length with
  | none => simp
  | some i =>
    have hi : i ∈ (List.range pre.length).filter (fun j => sepStop nw esc pre j) :=
      mem_of_getLast?_eq _ i hm
    have hlt : i < pre.length := List.mem_range.mp (List.mem_filter.mp hi).1
    show i + 1 ≤ pre.length
    omega

/-- Witness for the backward scan: `"he\ wor"` has no quotes; the only
separator is the escaped space at offset 3, so no stop position exists and
the word starts at offset 0. -/
theorem unquoted_backward_scan_witness :
    (quotePositions defaultQuotes '\\' (("he\\ wor").toList)).length % 2 = 0 ∧
    scanWordStart (("he\\ wor").toList) defaultQuotes defaultNonWord '\\' = (0, none) := by
  have h := unquoted_backward_scan (("he\\ wor").toList) defaultNonWord defaultQuotes '\\'
    (Or.inr (by decide))
  refine ⟨by decide, ?_⟩
  rw [h.1]
  decide

/-!  ## `rp_complete_quoted_word` (completers.c:63-162) and the rewrite sink

The function scans the word boundary, aborts silently on an empty word or
allocation failure, unescapes the word when unquoted, installs
`word_add_completion_ex` with a fresh `word_closure_t` as the active sink,
invokes the user completion routine exactly once, and restores the saved
sink fields.  Allocation success is an input of the model; the invocation is
represented as the returned `word_call` value (`none` = the user routine is
never invoked and no candidate can be proposed). -/

/-- A proposed completion candidate (the argument tuple of the completion
sink surface). -/
structure Candidate where
  display : Option (List Char)
  replacement : List Char
  delete_before : Int
  delete_after : Int
deriving DecidableEq, Repr

/-- The `word_closure_t` of completers.c:21-29 (its data fields; the
previous-sink pointers are handled by the caller model). -/
structure word_closure_t where
  non_word_chars : List Char
  escape_char : Char
  quote : Option Char
  delete_before_adjust : Int
deriving DecidableEq, Repr

/-- `word_add_completion_ex` (completers.c:33-55): copy the replacement into
the scratch buffer, append the closing quote when quoted or escape the
separators when not, and forward to the previous sink with the display
defaulted and `delete_before` increased by the adjustment.  The returned
value is the candidate handed to the previous completion function. -/
def word_add_completion_ex (wenv : word_closure_t) (display : Option (List Char))
    (replacement : List Char) (delete_before delete_after : Int) : Candidate :=
  { display := some (display.getD replacement)
    replacement :=
      match wenv.quote with
      | some q => replacement ++ [q]
      | none => word_escape wenv.non_word_chars wenv.escape_char replacement
    delete_before := wenv.delete_before_adjust + delete_before
    delete_after := delete_after }

/-- The data of the single invocation of the user completion routine made by
`rp_complete_quoted_word`: the (unescaped) word it receives, and the quote
and span adjustment stored in the closure. -/
structure word_call where
  word : List Char
  quote : Option Char
  delete_before_adjust : Nat
deriving DecidableEq, Repr

/-- `rp_complete_quoted_word` (completers.c:63-162) up to the invocation of
the user routine: `none` when the scan yields an empty word or when
duplicating the word (`mem_strdup`) or allocating the scratch buffer
(`sbuf_new`) fails — in those cases the function returns before the user
routine runs; otherwise the invocation's data. -/
def rp_complete_quoted_word (wordAllocOk sbufAllocOk : Bool) (pre : List Char)
    (nwOpt qcOpt : Option (List Char)) (esc : Char) : Option word_call :=
  if pre.length =
      (scanWordStart pre (qcOpt.getD defaultQuotes) (nwOpt.getD defaultNonWord) esc).1 then
    none
  else if wordAllocOk = false then none
  else if sbufAllocOk = false then none
  else
    some { word :=
             match (scanWordStart pre (qcOpt.getD defaultQuotes)
                 (nwOpt.getD defaultNonWord) esc).2 with
             | none =>
               word_unescape (nwOpt.getD defaultNonWord) esc
                 (pre.drop (scanWordStart pre (qcOpt.getD defaultQuotes)
                   (nwOpt.getD defaultNonWord) esc).1)
             | some _ =>
               pre.drop (scanWordStart pre (qcOpt.getD defaultQuotes)
                 (nwOpt.getD defaultNonWord) esc).1
           quote := (scanWordStart pre (qcOpt.getD defaultQuotes)
             (nwOpt.getD defaultNonWord) esc).2
           delete_before_adjust :=
             pre.length - (scanWordStart pre (qcOpt.getD defaultQuotes)
               (nwOpt.getD defaultNonWord) esc).1 }

/-- The `word_closure_t` built at completers.c:140-151 for a given call. -/
def call_closure (nwOpt : Option (List Char)) (esc : Char) (call : word_call) :
    word_closure_t :=
  { non_word_chars := nwOpt.getD defaultNonWord
    escape_char := esc
    quote := call.quote
    delete_before_adjust := (call.delete_before_adjust : Int) }

/-- The net effect of one `rp_complete_quoted_word` call on the mutable
completion-environment fields `cenv->complete` and `cenv->closure`
(completers.c:146-158), over an abstract pointer type:  on the non-abort
path the function saves `prev_complete := cenv->complete` and
`prev_env := cenv->env`, installs `&word_add_completion_ex` / `&wenv`, runs
the user routine (whose own effect on the two fields is overwritten by the
restore), and finally assigns `cenv->complete := prev_complete` and
`cenv->closure := prev_env` — the saved `cenv->env`, not the saved closure. -/
def quoted_word_cenv_after {α : Type} (wordAllocOk sbufAllocOk : Bool) (pre : List Char)
    (nwOpt qcOpt : Option (List Char)) (esc : Char)
    (complete0 closure0 env0 pWordAdd pWenv : α) (funEffect : α × α → α × α) : α × α :=
  if (rp_complete_quoted_word wordAllocOk sbufAllocOk pre nwOpt qcOpt esc).isSome then
    let _ := funEffect (pWordAdd, pWenv)
    (complete0, env0)
  else (complete0, closure0)

/-- C3: every candidate intercepted by `word_add_completion_ex` is forwarded
to the previous sink with display equal to the given display when non-null
and otherwise the given replacement, with `delete_before` equal to the given
`delete_before` plus the closure's adjustment — which equals the length of
the original still-quoted/escaped word span (`len - word_start`) — and with
`delete_after` passed through unchanged. -/
theorem word_rewrite_forwarding (wa sa : Bool) (pre : List Char)
    (nwOpt qcOpt : Option (List Char)) (esc : Char) (call : word_call)
    (h : rp_complete_quoted_word wa sa pre nwOpt qcOpt esc = some call)
    (disp : Option (List Char)) (repl : List Char) (db da : Int) :
    (word_add_completion_ex (call_closure nwOpt esc call) disp repl db da).display =
      some (disp.getD repl) ∧
    (word_add_completion_ex (call_closure nwOpt esc call) disp repl db da).delete_before =
      (call.delete_before_adjust : Int) + db ∧
    (word_add_completion_ex (call_closure nwOpt esc call) disp repl db da).delete_after =
      da ∧
    call.delete_before_adjust =
      pre.length -
        (scanWordStart pre (qcOpt.getD defaultQuotes) (nwOpt.getD defaultNonWord) esc).1 := by
  refine ⟨rfl, rfl, rfl, ?_⟩
  unfold rp_complete_quoted_word at h
  split at h
  · simp at h
  · split at h
    · simp at h
    · split at h
      · simp at h
      · have hc := Option.some.inj h
        rw [← hc]

/-- Witness for the forwarding contract, the spec's scenario: for the raw
input `"he\ wor"` with separators `" \t\r\n"` and escape `'\'`, the word
span is the whole string (adjustment 7), the user callback receives
`"he wor"`, and a proposed replacement `"he world"` is forwarded as
`"he\ world"` with `delete_before` 7. -/
theorem word_rewrite_forwarding_witness :
    rp_complete_quoted_word true true (("he\\ wor").toList) (some defaultNonWord) none '\\' =
      some ⟨("he wor").toList, none, 7⟩ ∧
    (word_add_completion_ex (call_closure (some defaultNonWord) '\\'
        ⟨("he wor").toList, none, 7⟩) none (("he world").toList) 0 0).delete_before =
      ((7 : Nat) : Int) + 0 ∧
    (word_add_completion_ex (call_closure (some defaultNonWord) '\\'
        ⟨("he wor").toList, none, 7⟩) none (("he world").toList) 0 0).replacement =
      ("he\\ world").toList := by
  refine ⟨by decide, ?_, by decide⟩
  exact (word_rewrite_forwarding true true (("he\\ wor").toList) (some defaultNonWord) none
    '\\' ⟨("he wor").toList, none, 7⟩ (by decide) none (("he world").toList) 0 0).2.1

/-- C9: `rp_complete_quoted_word` runs the user completion routine at most
once per call — the model returns at most one invocation — and not at all
(so no candidate is proposed and previously stored candidates are untouched)
when the computed word start equals the prefix length (empty word) or when
duplicating the word or allocating the scratch buffer fails; the abort is a
plain early return. -/
theorem quoted_word_silent_abort (wa sa : Bool) (pre : List Char)
    (nwOpt qcOpt : Option (List Char)) (esc : Char) :
    ((scanWordStart pre (qcOpt.getD defaultQuotes) (nwOpt.getD defaultNonWord) esc).1 =
        pre.length ∨ wa = false ∨ sa = false →
      rp_complete_quoted_word wa sa pre nwOpt qcOpt esc = none) ∧
    (rp_complete_quoted_word wa sa pre nwOpt qcOpt esc).toList.length ≤ 1 := by
  constructor
  · intro h
    rcases h with h | h | h
    · simp [rp_complete_quoted_word, h]
    · subst h
      simp [rp_complete_quoted_word]
    · subst h
      simp [rp_complete_quoted_word]
  · cases hE : rp_complete_quoted_word wa sa pre nwOpt qcOpt esc <;> simp

/-- Witness for the silent abort: `"x "` has an empty word (the word start
equals the length), and with a failed word allocation on `"x"` the routine
is likewise never invoked. -/
theorem quoted_word_silent_abort_witness :
    rp_complete_quoted_word true true (("x ").toList) none none '\\' = none ∧
    rp_complete_quoted_word false true (("x").toList) none none '\\' = none := by
  constructor
  · exact (quoted_word_silent_abort true true (("x ").toList) none none '\\').1
      (Or.inl (by decide))
  · exact (quoted_word_silent_abort false true (("x").toList) none none '\\').1
      (Or.inr (Or.inl rfl))

/-- C5 fails on the code: after a non-aborting `rp_complete_quoted_word`
call, `cenv->complete` is indeed restored to its previous value (first
conjunct, over any pointer type and any effect of the user routine on the
two fields), but `cenv->closure` is set to the saved value of `cenv->env`
(completers.c:147 saves `cenv->env` into `prev_env`; completers.c:158 writes
it into `cenv->closure`), not to the closure value held before the call:
with complete=10, closure=20, env=30 the fields end as (10, 30), and 30 is
not the prior closure 20. -/
theorem quoted_word_closure_not_restored :
    (∀ (α : Type) (wa sa : Bool) (pre : List Char) (nwOpt qcOpt : Option (List Char))
        (esc : Char) (c0 k0 e0 pw pv : α) (f : α × α → α × α),
      (quoted_word_cenv_after wa sa pre nwOpt qcOpt esc c0 k0 e0 pw pv f).1 = c0) ∧
    quoted_word_cenv_after true true (['a']) none none '\\'
      (10 : Nat) 20 30 40 50 id = (10, 30) ∧
    (quoted_word_cenv_after true true (['a']) none none '\\'
      (10 : Nat) 20 30 40 50 id).2 ≠ 20 := by
  refine ⟨?_, by decide, by decide⟩
  intro α wa sa pre nwOpt qcOpt esc c0 k0 e0 pw pv f
  unfold quoted_word_cenv_after
  split <;> rfl

/-!  ## Filename completion (completers.c:260-362)

The directory enumeration abstraction (`os_findfirst` / `os_findnext` /
`os_findclose` / `os_is_dir`) reads the host filesystem; it is modelled as
an abstract filesystem value: `entries dir` is the ordered entry listing of
a directory, `none` when the directory cannot be opened, and `is_dir`
answers the `os_is_dir` probe.  `rp_add_completion` forwards a candidate
(null display, the built string, deltas 0) to the currently installed sink
(completions.c is not part of this snapshot; modelled from the spec's sink
surface `add(display_or_none, replacement, delete_before, delete_after) ->
continue`); the sink is passed as an explicit `step` function returning the
continue flag. -/

/-- The host filesystem as seen through the directory enumeration
abstraction. -/
structure fs_t where
  entries : List Char → Option (List (List Char))
  is_dir : List Char → Bool

/-- `os_path_is_absolute`, POSIX branch (completers.c:253-255): the first
byte is `'/'`. -/
def os_path_is_absolute (path : List Char) : Bool := charAt path 0 == '/'

/-- The do-while body of `filename_complete_indir` (completers.c:269-286)
over the (remaining) entry names.  Threads the `dir` and `dir_prefix` string
buffers exactly as the source does: `dir_prefix` gets the entry name (and
the separator when the probe says directory) appended, the probe path is
appended to `dir` and rolled back before the candidate is pushed, and
`dir_prefix` is rolled back after; the loop stops as soon as the sink
returns false.  Returns the final buffers, sink state, and continue flag. -/
def filename_complete_entries {σ : Type} (fs : fs_t) (step : σ → List Char → σ × Bool)
    (basePre : List Char) (dir_sep : Char) :
    List (List Char) → List Char → List Char → σ → List Char × List Char × σ × Bool
  | [], dir, dir_pre, s => (dir, dir_pre, s, true)
  | name :: rest, dir, dir_pre, s =>
    if name ≠ (['.']) ∧ name ≠ (['.', '.']) ∧ basePre.isPrefixOf name then
      if dir_sep ≠ NUL then
        if fs.is_dir (dir ++ dir_sep :: name) then
          if (step s (dir_pre ++ name ++ [dir_sep])).2 then
            filename_complete_entries fs step basePre dir_sep rest
              ((dir ++ dir_sep :: name).take dir.length)
              ((dir_pre ++ name ++ [dir_sep]).take dir_pre.length)
              (step s (dir_pre ++ name ++ [dir_sep])).1
          else
            ((dir ++ dir_sep :: name).take dir.length,
             (dir_pre ++ name ++ [dir_sep]).take dir_pre.length,
             (step s (dir_pre ++ name ++ [dir_sep])).1, false)
        else
          if (step s (dir_pre ++ name)).2 then
            filename_complete_entries fs step basePre dir_sep rest
              ((dir ++ dir_sep :: name).take dir.length)
              ((dir_pre ++ name).take dir_pre.length)
              (step s (dir_pre ++ name)).1
          else
            ((dir ++ dir_sep :: name).take dir.length,
             (dir_pre ++ name).take dir_pre.length,
             (step s (dir_pre ++ name)).1, false)
      else
        if (step s (dir_pre ++ name)).2 then
          filename_complete_entries fs step basePre dir_sep rest dir
            ((dir_pre ++ name).take dir_pre.length) (step s (dir_pre ++ name)).1
        else (dir, (dir_pre ++ name).take dir_pre.length,
          (step s (dir_pre ++ name)).1, false)
    else filename_complete_entries fs step basePre dir_sep rest dir dir_pre s

/-- `filename_complete_indir` (completers.c:264-290).  `os_findfirst` fails
(and nothing is enumerated, with the continue flag left true) when the
directory cannot be opened or its listing is empty. -/
def filename_complete_indir {σ : Type} (fs : fs_t) (step : σ → List Char → σ × Bool)
    (dir dir_pre basePre : List Char) (dir_sep : Char) (s : σ) :
    List Char × List Char × σ × Bool :=
  match fs.entries dir with
  | none => (dir, dir_pre, s, true)
  | some [] => (dir, dir_pre, s, true)
  | some names => filename_complete_entries fs step basePre dir_sep names dir dir_pre s

/-- Split the semicolon-separated root list exactly as the loop at
completers.c:325-338 does: `strchr(root, ';')`, one segment per iteration,
the final segment running to the end of the string. -/
def splitSemi : List Char → List (List Char)
  | [] => [[]]
  | c :: rest =>
    if c = ';' then [] :: splitSemi rest
    else
      match splitSemi rest with
      | [] => [[c]]
      | seg :: segs => (c :: seg) :: segs

/-- The offset just past the last `'/'` of the prefix (`strrchr(prefix,'/')`
then `base++`, completers.c:305-312); `none` when there is no `'/'`. -/
def base_idx (p : List Char) : Option Nat :=
  (((List.range p.length).filter (fun i => charAt p i == '/')).getLast?).map (· + 1)

/-- The relative-path root loop of `filename_completer` (completers.c:323-348):
for each root in order, build `root + "/" + dir-part-without-its-trailing-
slash` and complete inside it.  The continue flag returned by
`filename_complete_indir` is NOT consulted (line 347 discards it), so every
root is enumerated; the threaded `dir_prefix` buffer is whatever the
previous enumeration left behind.  Returns the list of directories
enumerated, the final `dir_prefix`, and the final sink state. -/
def filename_completer_roots {σ : Type} (fs : fs_t) (step : σ → List Char → σ × Bool)
    (dirPartNS basePre : List Char) (dir_sep : Char) :
    List (List Char) → List Char → σ → List (List Char) × List Char × σ
  | [], dir_pre, s => ([], dir_pre, s)
  | r :: rs, dir_pre, s =>
    match filename_complete_indir fs step (r ++ '/' :: dirPartNS) dir_pre basePre
        dir_sep s with
    | (_, dir_pre1, s1, _cont) =>
      match filename_completer_roots fs step dirPartNS basePre dir_sep rs dir_pre1 s1 with
      | (ds, dir_pre2, s2) => ((r ++ '/' :: dirPartNS) :: ds, dir_pre2, s2)

/-- `filename_completer` (completers.c:297-353): split the prefix at its
last `'/'` into `dir_prefix` and the base, then — for an absolute prefix —
complete directly in the directory named by the prefix's directory portion
(roots are not consulted), and otherwise run the root loop over the
semicolon-separated root list.  Returns the list of directories enumerated
and the final sink state. -/
def filename_completer {σ : Type} (fs : fs_t) (step : σ → List Char → σ × Bool)
    (pre roots : List Char) (dir_sep : Char) (s : σ) : List (List Char) × σ :=
  if os_path_is_absolute pre then
    match base_idx pre with
    | some b =>
      ([pre.take b],
       (filename_complete_indir fs step (pre.take b) (pre.take b) (pre.drop b)
         dir_sep s).2.2.1)
    | none =>
      ([[]], (filename_complete_indir fs step [] [] pre dir_sep s).2.2.1)
  else
    match base_idx pre with
    | some b =>
      match filename_completer_roots fs step (pre.take (b - 1)) (pre.drop b) dir_sep
          (splitSemi roots) (pre.take b) s with
      | (ds, _, s1) => (ds, s1)
    | none =>
      match filename_completer_roots fs step [] pre dir_sep (splitSemi roots) [] s with
      | (ds, _, s1) => (ds, s1)

/-- `rp_complete_filename` (completers.c:355-362): default a null root list
to `"."`, then run `rp_complete_quoted_word` with the filename separator
set, escape `'\'` and quotes `"'\""` over `filename_completer`; candidates
proposed during enumeration pass through `word_add_completion_ex` before
reaching the outer sink `stepC`. -/
def rp_complete_filename {σ : Type} (fs : fs_t) (stepC : σ → Candidate → σ × Bool)
    (wordAllocOk sbufAllocOk : Bool) (pre : List Char) (dir_sep : Char)
    (rootsOpt : Option (List Char)) (s : σ) : List (List Char) × σ :=
  match rp_complete_quoted_word wordAllocOk sbufAllocOk pre (some filenameNonWord)
      (some defaultQuotes) '\\' with
  | none => ([], s)
  | some call =>
    filename_completer fs
      (fun st r =>
        stepC st (word_add_completion_ex (call_closure (some filenameNonWord) '\\' call)
          none r 0 0))
      call.word (rootsOpt.getD (['.'])) dir_sep s

/-- A sink that accepts every candidate (records it and continues). -/
def collectStep : List (List Char) → List Char → List (List Char) × Bool :=
  fun s r => (s ++ [r], true)

/-- A sink that refuses every candidate (records the proposal it received
and returns the stop signal, like a store at capacity). -/
def stepRefuse : List (List Char) → List Char → List (List Char) × Bool :=
  fun s r => (s ++ [r], false)

/-! ## Buffer restoration and candidate characterisation of one directory -/

theorem entries_restore {σ : Type} (fs : fs_t) (step : σ → List Char → σ × Bool)
    (basePre : List Char) (sep : Char) :
    ∀ (names : List (List Char)) (dir dir_pre : List Char) (s : σ),
      (filename_complete_entries fs step basePre sep names dir dir_pre s).1 = dir ∧
      (filename_complete_entries fs step basePre sep names dir dir_pre s).2.1 = dir_pre := by
  intro names
  induction names with
  | nil => intro dir dir_pre s; exact ⟨rfl, rfl⟩
  | cons name rest ih =>
    intro dir dir_pre s
    have hdir : (dir ++ sep :: name).take dir.length = dir := List.take_left dir _
    have hdp1 : (dir_pre ++ name ++ [sep]).take dir_pre.length = dir_pre := by
      rw [List.append_assoc]; exact List.take_left dir_pre _
    have hdp2 : (dir_pre ++ name).take dir_pre.length = dir_pre := List.take_left dir_pre _
    unfold filename_complete_entries
    by_cases hm : name ≠ (['.']) ∧ name ≠ (['.', '.']) ∧ basePre.isPrefixOf name
    · rw [if_pos hm]
      by_cases hsep : sep ≠ NUL
      · rw [if_pos hsep]
        by_cases hd : fs.is_dir (dir ++ sep :: name) = true
        · rw [if_pos hd]
          by_cases hc : (step s (dir_pre ++ name ++ [sep])).2 = true
          · rw [if_pos hc, hdir, hdp1]
            exact ih dir dir_pre _
          · rw [if_neg hc]
            exact ⟨hdir, hdp1⟩
        · rw [if_neg hd]
          by_cases hc : (step s (dir_pre ++ name)).2 = true
          · rw [if_pos hc, hdir, hdp2]
            exact ih dir dir_pre _
          · rw [if_neg hc]
            exact ⟨hdir, hdp2⟩
      · rw [if_neg hsep]
        by_cases hc : (step s (dir_pre ++ name)).2 = true
        · rw [if_pos hc, hdp2]
          exact ih dir dir_pre _
        · rw [if_neg hc]
          exact ⟨rfl, hdp2⟩
    · rw [if_neg hm]
      exact ih dir dir_pre s

theorem entries_collect (fs : fs_t) (basePre : List Char) (sep : Char) :
    ∀ (names : List (List Char)) (dir dir_pre : List Char) (acc : List (List Char)),
      (filename_complete_entries fs collectStep basePre sep names dir dir_pre acc).2.2.1 =
        acc ++ names.filterMap (fun n =>
          if n ≠ (['.']) ∧ n ≠ (['.', '.']) ∧ basePre.isPrefixOf n then
            some (dir_pre ++ n ++
              (if sep ≠ NUL ∧ fs.is_dir (dir ++ sep :: n) then [sep] else []))
          else none) := by
  intro names
  induction names with
  | nil => intro dir dir_pre acc; simp [filename_complete_entries]
  | cons name rest ih =>
    intro dir dir_pre acc
    have hdir : (dir ++ sep :: name).take dir.length = dir := List.take_left dir _
    have hdp1 : (dir_pre ++ name ++ [sep]).take dir_pre.length = dir_pre := by
      rw [List.append_assoc]; exact List.take_left dir_pre _
    have hdp2 : (dir_pre ++ name).take dir_pre.length = dir_pre := List.take_left dir_pre _
    unfold filename_complete_entries
    by_cases hm : name ≠ (['.']) ∧ name ≠ (['.', '.']) ∧ basePre.isPrefixOf name
    · rw [if_pos hm]
      obtain ⟨hm1, hm2, hm3⟩ := hm
      have hm3' : basePre <+: name := by simpa using hm3
      by_cases hsep : sep ≠ NUL
      · rw [if_pos hsep]
        by_cases hd : fs.is_dir (dir ++ sep :: name) = true
        · rw [if_pos hd]
          rw [if_pos (show (collectStep acc (dir_pre ++ name ++ [sep])).2 = true from rfl)]
          rw [hdir, hdp1]
          rw [ih dir dir_pre _]
          simp [List.filterMap_cons, hm1, hm2, hm3', hsep, hd, collectStep]
        · rw [if_neg hd]
          rw [if_pos (show (collectStep acc (dir_pre ++ name)).2 = true from rfl)]
          rw [hdir, hdp2]
          rw [ih dir dir_pre _]
          simp [List.filterMap_cons, hm1, hm2, hm3', hsep, hd, collectStep]
      · rw [if_neg hsep]
        rw [if_pos (show (collectStep acc (dir_pre ++ name)).2 = true from rfl)]
        rw [hdp2]
        rw [ih dir dir_pre _]
        simp [List.filterMap_cons, hm1, hm2, hm3', hsep, collectStep]
    · rw [if_neg hm]
      rw [ih dir dir_pre acc]
      have hm' : ¬(name ≠ (['.']) ∧ name ≠ (['.', '.']) ∧ basePre <+: name) := by
        simpa using hm
      simp [List.filterMap_cons, hm']

/-- C8: during enumeration of one directory a candidate is proposed exactly
for each entry whose name byte-prefix-matches `base_prefix` and is neither
`"."` nor `".."`; its replacement is `dir_prefix ++ name`, with `dir_sep`
appended if and only if `dir_sep` is non-zero and the probe path names a
directory; and the `dir` and `dir_prefix` buffers are restored after every
entry, so the enumeration (with any sink, stopping early or not) leaves both
buffers exactly as it found them. -/
theorem filename_indir_spec {σ : Type} (fs : fs_t) (step : σ → List Char → σ × Bool)
    (basePre : List Char) (sep : Char) (dir dir_pre : List Char)
    (names : List (List Char)) (s : σ) (acc : List (List Char))
    (h : fs.entries dir = some names) :
    ((filename_complete_indir fs step dir dir_pre basePre sep s).1 = dir ∧
     (filename_complete_indir fs step dir dir_pre basePre sep s).2.1 = dir_pre) ∧
    (filename_complete_indir fs collectStep dir dir_pre basePre sep acc).2.2.1 =
      acc ++ names.filterMap (fun n =>
        if n ≠ (['.']) ∧ n ≠ (['.', '.']) ∧ basePre.isPrefixOf n then
          some (dir_pre ++ n ++
            (if sep ≠ NUL ∧ fs.is_dir (dir ++ sep :: n) then [sep] else []))
        else none) := by
  cases names with
  | nil =>
    unfold filename_complete_indir
    rw [h]
    exact ⟨⟨rfl, rfl⟩, by simp⟩
  | cons n rest =>
    unfold filename_complete_indir
    rw [h]
    exact ⟨entries_restore fs step basePre sep (n :: rest) dir dir_pre s,
      entries_collect fs basePre sep (n :: rest) dir dir_pre acc⟩

/-- The filesystem of the spec's one-directory scenario: `.` lists
`{., .., src, test, README.md}`, and `./src` and `./test` are directories. -/
def fs_demo_dir : fs_t :=
  { entries := fun d =>
      if d = ((".").toList) then
        some [(".").toList, ("..").toList, ("src").toList, ("test").toList,
          ("README.md").toList]
      else none
    is_dir := fun d => d = (("./src").toList) || d = (("./test").toList) }

/-- Witness for the one-directory enumeration, the spec's scenario: in `.`
containing `{., .., src (dir), test (dir), README.md}` with base prefix
`"sr"` and `dir_sep = '/'`, exactly one candidate is proposed, `"src/"`. -/
theorem filename_indir_spec_witness :
    fs_demo_dir.entries ((".").toList) =
      some [(".").toList, ("..").toList, ("src").toList, ("test").toList,
        ("README.md").toList] ∧
    (filename_complete_indir fs_demo_dir collectStep ((".").toList) [] (("sr").toList)
      '/' ([] : List (List Char))).2.2.1 = [("src/").toList] := by
  have h := filename_indir_spec fs_demo_dir collectStep (("sr").toList) '/'
    ((".").toList) []
    [(".").toList, ("..").toList, ("src").toList, ("test").toList, ("README.md").toList]
    ([] : List (List Char)) ([] : List (List Char)) (by decide)
  exact ⟨by decide, h.2.trans (by decide)⟩

/-- The filesystem of the two-root stop scenario: roots `a` and `b`, with
`a/` listing `{f1, fx}` and `b/` listing `{f2}`. -/
def fs_two_roots : fs_t :=
  { entries := fun d =>
      if d = (("a/").toList) then some [("f1").toList, ("fx").toList]
      else if d = (("b/").toList) then some [("f2").toList]
      else if d = (("/etc/").toList) then some [("passwd").toList]
      else none
    is_dir := fun _ => false }

/-- C4 fails on the code: with roots `"a;b"`, prefix `"f"` and a sink that
refuses every candidate (as a store at capacity does), the enumeration of
`a/` does stop after the first candidate (`fx` is never proposed and the
directory is closed), but the root loop at completers.c:327-348 discards the
continue flag returned by `filename_complete_indir` (line 347), so root `b`
is still enumerated and `f2` is proposed to the sink after it already
returned false: the final trace shows both directories enumerated and two
proposals. -/
theorem filename_roots_enumerated_after_stop :
    (stepRefuse [] (("f1").toList)).2 = false ∧
    filename_completer fs_two_roots stepRefuse (("f").toList) (("a;b").toList) NUL
      ([] : List (List Char)) =
      ([("a/").toList, ("b/").toList], [("f1").toList, ("f2").toList]) :=
  ⟨rfl, by decide⟩

/-- `base_idx` is defined whenever the prefix is absolute. -/
theorem base_idx_isSome_of_abs (p : List Char) (h : charAt p 0 = '/') :
    (base_idx p).isSome := by
  have hne : p ≠ [] := by
    intro h0
    subst h0
    rw [charAt_nil] at h
    exact absurd h (by decide)
  have hlen : 0 < p.length := List.length_pos.mpr hne
  have h0 : (0 : Nat) ∈ (List.range p.length).filter (fun i => charAt p i == '/') :=
    List.mem_filter.mpr ⟨List.mem_range.mpr hlen, by simp [h]⟩
  have hne2 : ((List.range p.length).filter (fun i => charAt p i == '/')) ≠ [] :=
    List.ne_nil_of_mem h0
  unfold base_idx
  rw [Option.isSome_map']
  exact List.getLast?_isSome.mpr hne2

/-- C7: for every prefix that is an absolute path (POSIX predicate
`os_path_is_absolute`: first byte `'/'`), the filename completer enumerates
exactly the single directory named by the prefix's directory portion (up to
and including its last `'/'`), and the roots argument is never consulted:
the result is identical for any two root lists. -/
theorem filename_absolute_ignores_roots {σ : Type} (fs : fs_t)
    (step : σ → List Char → σ × Bool) (pre roots roots' : List Char) (sep : Char)
    (s : σ) (h : charAt pre 0 = '/') :
    (filename_completer fs step pre roots sep s).1 =
      [pre.take ((base_idx pre).getD 0)] ∧
    filename_completer fs step pre roots sep s =
      filename_completer fs step pre roots' sep s := by
  have habs : os_path_is_absolute pre = true := by
    unfold os_path_is_absolute
    simp [h]
  obtain ⟨b, hb⟩ := Option.isSome_iff_exists.mp (base_idx_isSome_of_abs pre h)
  constructor
  · unfold filename_completer
    rw [if_pos habs, hb]
    simp [hb]
  · unfold filename_completer
    rw [if_pos habs, if_pos habs, hb]

/-- Witness for absolute-path completion, the spec's scenario: for prefix
`"/etc/pas"` only `/etc/` is enumerated, and the roots string `".;/usr"` is
interchangeable with any other. -/
theorem filename_absolute_ignores_roots_witness :
    (filename_completer fs_two_roots collectStep (("/etc/pas").toList)
      ((".;/usr").toList) NUL ([] : List (List Char))).1 = [("/etc/").toList] ∧
    filename_completer fs_two_roots collectStep (("/etc/pas").toList)
      ((".;/usr").toList) NUL ([] : List (List Char)) =
      filename_completer fs_two_roots collectStep (("/etc/pas").toList)
      (("x").toList) NUL ([] : List (List Char)) := by
  have h := filename_absolute_ignores_roots fs_two_roots collectStep
    (("/etc/pas").toList) ((".;/usr").toList) (("x").toList) NUL
    ([] : List (List Char)) (by decide)
  exact ⟨h.1.trans (by decide), h.2⟩

/-- C10: calling `rp_complete_filename` with a null roots argument behaves
identically to calling it with roots `"."`: the null is replaced by the
single current-directory root (completers.c:356) before any completion work
is done, so no further code path depends on the nullness. -/
theorem filename_null_roots_default {σ : Type} (fs : fs_t)
    (stepC : σ → Candidate → σ × Bool) (wa sa : Bool) (pre : List Char) (sep : Char)
    (s : σ) :
    rp_complete_filename fs stepC wa sa pre sep none s =
      rp_complete_filename fs stepC wa sa pre sep (some (['.'])) s := rfl
